import Mathlib

/-!
Verification of the group-response collection and quorum-gated stage
orchestration engine of the Agent-Intraction repository.

The embedding models, as pure Lean functions over explicit state:
  * the inbound-message watcher callback and per-stage response map of
    `InteractiveAgent.waitForResponses` (src/agents/interactive-agent.ts),
  * the yes/no normalization and roster-majority rule of
    `InteractiveAgent.askConfirmation`,
  * the connection map, OAuth-callback upsert and quorum poll loop of
    `CalendarOAuthManager` (src/agents/calendar-oauth.ts),
  * the numeric single-choice aggregation of the date-selection stage of
    `examples/clean-interactive-planner.ts`.

JavaScript `Map<string, V>` objects are modelled as insertion-ordered
association lists `List (String × V)`; message text is modelled as
`List Char`.  Polling loops with a deadline are modelled as structural
recursion over the list of batches of events that arrive during the
successive sleep intervals that fit in the timeout: the empty batch list
means the timeout has elapsed.
-/

/-- An inbound message as seen by the `onNewMessage` watcher callback of
`InteractiveAgent.waitForResponses`: chat id, own-message flag, optional
sender and handle fields, and the text. -/
structure InboundMessage where
  chatId : String
  isFromMe : Bool
  sender : Option String
  handle : Option String
  text : String
deriving DecidableEq

/-- JavaScript truthiness of an optional string: `undefined`/`null` and the
empty string are falsy.  Used to model the `a || b` fallback chain. -/
def truthyStr (o : Option String) : Option String :=
  match o with
  | none => none
  | some s => if s = "" then none else some s

/-- `const sender = message.sender || message.handle || 'user'`
(interactive-agent.ts line 98). -/
def senderKey (m : InboundMessage) : String :=
  match truthyStr m.sender with
  | some s => s
  | none =>
    match truthyStr m.handle with
    | some h => h
    | none => "user"

/-- The guard of the watcher callback: the message belongs to this group
chat and was not authored by the bot itself (lines 92 and 95). -/
def accepted (groupChatId : String) (m : InboundMessage) : Bool :=
  m.chatId == groupChatId && !m.isFromMe

/-- Lookup in an insertion-ordered association list (model of
`Map.get` / `Map.has`). -/
def lookupA {α : Type} (k : String) : List (String × α) → Option α
  | [] => none
  | p :: rest => if p.1 = k then some p.2 else lookupA k rest

/-- Left-biased choice on options, the shape of `a.orElse b`. -/
def optOr {α : Type} (a b : Option α) : Option α :=
  match a with
  | some x => some x
  | none => b

/-- The keys of an association list, in insertion order. -/
def keysOf {α : Type} (l : List (String × α)) : List String :=
  l.map Prod.fst

/-- One step of the watcher callback (interactive-agent.ts lines 90-108):
drop messages from other chats and own messages, then record the text
under the sender key only if that sender has not responded yet. -/
def processMessage (gid : String) (st : List (String × String)) (m : InboundMessage) :
    List (String × String) :=
  if accepted gid m = false then st
  else if (lookupA (senderKey m) st).isSome then st
  else st ++ [(senderKey m, m.text)]

/-- The response map accumulated by the watcher over a whole stage's
sequence of inbound messages, starting from the fresh empty map that
`waitForResponses` allocates at line 84. -/
def collectResponses (gid : String) (msgs : List InboundMessage) : List (String × String) :=
  msgs.foldl (processMessage gid) []

/-- The text of the first accepted message with sender key `s`, if any. -/
def firstText (gid : String) (s : String) (msgs : List InboundMessage) : Option String :=
  ((msgs.filter (fun m => accepted gid m && senderKey m == s)).map (fun m => m.text)).head?

theorem optOr_none {α : Type} (a : Option α) : optOr a none = a := by
  cases a <;> rfl

theorem lookupA_append {α : Type} (k : String) (l1 l2 : List (String × α)) :
    lookupA k (l1 ++ l2) = optOr (lookupA k l1) (lookupA k l2) := by
  induction l1 with
  | nil => rfl
  | cons p rest ih =>
    by_cases h : p.1 = k
    · simp [lookupA, h, optOr]
    · simp [lookupA, h, ih]

theorem lookupA_eq_none_iff {α : Type} (k : String) (l : List (String × α)) :
    lookupA k l = none ↔ k ∉ keysOf l := by
  induction l with
  | nil => simp [lookupA, keysOf]
  | cons p rest ih =>
    by_cases h : p.1 = k
    · subst h
      simp [lookupA, keysOf]
    · have h' : ¬k = p.1 := fun hk => h hk.symm
      simp [lookupA, h, keysOf, h'] at ih ⊢
      exact ih

/-- Core characterization of the watcher fold: looking up a sender in the
final map gives the entry it started with, or else the first accepted
message from that sender. -/
theorem lookup_foldl_process (gid : String) (msgs : List InboundMessage) :
    ∀ (st : List (String × String)) (s : String),
      lookupA s (msgs.foldl (processMessage gid) st) =
        optOr (lookupA s st) (firstText gid s msgs) := by
  induction msgs with
  | nil =>
    intro st s
    simp [firstText, optOr_none]
  | cons m rest ih =>
    intro st s
    rw [List.foldl_cons]
    rw [ih]
    by_cases hacc : accepted gid m = false
    · have hproc : processMessage gid st m = st := by simp [processMessage, hacc]
      rw [hproc]
      have hb : (accepted gid m && (senderKey m == s)) = false := by
        simp [hacc]
      have hft : firstText gid s (m :: rest) = firstText gid s rest := by
        unfold firstText
        rw [List.filter_cons]
        simp [hb]
      rw [hft]
    · rw [Bool.not_eq_false] at hacc
      by_cases hresp : (lookupA (senderKey m) st).isSome
      · have hproc : processMessage gid st m = st := by
          simp [processMessage, hacc, hresp]
        rw [hproc]
        by_cases hs : senderKey m = s
        · subst hs
          obtain ⟨t, ht⟩ := Option.isSome_iff_exists.mp hresp
          rw [ht]
          rfl
        · have hb : (accepted gid m && (senderKey m == s)) = false := by
            simp [hs]
          have hft : firstText gid s (m :: rest) = firstText gid s rest := by
            unfold firstText
            rw [List.filter_cons]
            simp [hb]
          rw [hft]
      · have hproc : processMessage gid st m = st ++ [(senderKey m, m.text)] := by
          simp [processMessage, hacc, hresp]
        rw [hproc]
        have hnone : lookupA (senderKey m) st = none :=
          Option.not_isSome_iff_eq_none.mp hresp
        by_cases hs : senderKey m = s
        · subst hs
          rw [lookupA_append]
          rw [hnone]
          have h1 : lookupA (senderKey m) [(senderKey m, m.text)] = some m.text := by
            simp [lookupA]
          rw [h1]
          have hb : (accepted gid m && (senderKey m == senderKey m)) = true := by
            simp [hacc]
          have hft : firstText gid (senderKey m) (m :: rest) = some m.text := by
            unfold firstText
            rw [List.filter_cons]
            simp [hb, hacc]
          rw [hft]
          rfl
        · rw [lookupA_append]
          have h1 : lookupA s [(senderKey m, m.text)] = none := by
            simp [lookupA, hs]
          rw [h1, optOr_none]
          have hb : (accepted gid m && (senderKey m == s)) = false := by
            simp [hs]
          have hft : firstText gid s (m :: rest) = firstText gid s rest := by
            unfold firstText
            rw [List.filter_cons]
            simp [hb]
          rw [hft]

theorem collect_lookup (gid : String) (msgs : List InboundMessage) (s : String) :
    lookupA s (collectResponses gid msgs) = firstText gid s msgs := by
  have h := lookup_foldl_process gid msgs [] s
  simpa [collectResponses, lookupA, optOr] using h

theorem process_keys_nodup (gid : String) (st : List (String × String)) (m : InboundMessage) :
    (keysOf st).Nodup → (keysOf (processMessage gid st m)).Nodup := by
  intro h
  unfold processMessage
  by_cases hacc : accepted gid m = false
  · rw [if_pos hacc]; exact h
  · rw [if_neg hacc]
    by_cases hresp : (lookupA (senderKey m) st).isSome
    · rw [if_pos hresp]; exact h
    · rw [if_neg hresp]
      have hk : senderKey m ∉ keysOf st :=
        (lookupA_eq_none_iff _ _).mp (Option.not_isSome_iff_eq_none.mp hresp)
      have hke : keysOf (st ++ [(senderKey m, m.text)]) = keysOf st ++ [senderKey m] := by
        simp [keysOf]
      rw [hke, List.nodup_append]
      refine ⟨h, by simp, ?_⟩
      intro a ha hb
      rw [List.mem_singleton] at hb
      subst hb
      exact hk ha

theorem collect_keys_nodup (gid : String) (msgs : List InboundMessage) :
    ∀ st : List (String × String),
      (keysOf st).Nodup → (keysOf (msgs.foldl (processMessage gid) st)).Nodup := by
  induction msgs with
  | nil => intro st h; exact h
  | cons m rest ih =>
    intro st h
    rw [List.foldl_cons]
    exact ih _ (process_keys_nodup gid st m h)

theorem mem_foldl_process_source (gid : String) (msgs : List InboundMessage) :
    ∀ (st : List (String × String)) (p : String × String),
      p ∈ msgs.foldl (processMessage gid) st →
      p ∈ st ∨ ∃ m, m ∈ msgs ∧ accepted gid m = true ∧ senderKey m = p.1 ∧ m.text = p.2 := by
  induction msgs with
  | nil => intro st p h; exact Or.inl h
  | cons m rest ih =>
    intro st p h
    rw [List.foldl_cons] at h
    rcases ih _ p h with hst | ⟨m', hm', h1, h2, h3⟩
    · unfold processMessage at hst
      by_cases hacc : accepted gid m = false
      · rw [if_pos hacc] at hst; exact Or.inl hst
      · rw [if_neg hacc] at hst
        rw [Bool.not_eq_false] at hacc
        by_cases hresp : (lookupA (senderKey m) st).isSome
        · rw [if_pos hresp] at hst; exact Or.inl hst
        · rw [if_neg hresp] at hst
          rcases List.mem_append.mp hst with h' | h'
          · exact Or.inl h'
          · have hp := List.mem_singleton.mp h'
            subst hp
            exact Or.inr ⟨m, List.mem_cons_self m rest, hacc, rfl, rfl⟩
    · exact Or.inr ⟨m', List.mem_cons_of_mem m hm', h1, h2, h3⟩

/-- C3: over one stage, `collectResponses` records exactly one response per
distinct sender key, equal to that sender's first accepted message,
regardless of arrival order and of repeated later messages from the same
sender: the key list has no duplicates, every lookup returns the sender's
first message text, and a sender has an entry exactly when it sent an
accepted message during the stage. -/
theorem collect_first_message_per_sender (gid : String) (msgs : List InboundMessage) :
    (keysOf (collectResponses gid msgs)).Nodup ∧
    (∀ s : String, lookupA s (collectResponses gid msgs) = firstText gid s msgs) ∧
    (∀ s : String, (lookupA s (collectResponses gid msgs)).isSome = true ↔
      ∃ m, m ∈ msgs ∧ accepted gid m = true ∧ senderKey m = s) := by
  refine ⟨collect_keys_nodup gid msgs [] (by simp [keysOf]), collect_lookup gid msgs, ?_⟩
  intro s
  rw [collect_lookup gid msgs s]
  unfold firstText
  constructor
  · intro h
    cases hL : List.filter (fun m => accepted gid m && senderKey m == s) msgs with
    | nil => rw [hL] at h; simp at h
    | cons a t =>
      have ha : a ∈ List.filter (fun m => accepted gid m && senderKey m == s) msgs := by
        rw [hL]; exact List.mem_cons_self a t
      have hmem := List.mem_filter.mp ha
      have hand : accepted gid a = true ∧ (senderKey a == s) = true := by
        simpa using hmem.2
      exact ⟨a, hmem.1, hand.1, beq_iff_eq.mp hand.2⟩
  · rintro ⟨m, hm, hacc, hs⟩
    have hmf : m ∈ List.filter (fun m => accepted gid m && senderKey m == s) msgs :=
      List.mem_filter.mpr ⟨hm, by simp [hacc, hs]⟩
    cases hL : List.filter (fun m => accepted gid m && senderKey m == s) msgs with
    | nil => rw [hL] at hmf; simp at hmf
    | cons a t => simp

theorem collect_first_message_per_sender_witness :
    lookupA "a" (collectResponses "g"
      [⟨"g", false, some "a", none, "x"⟩, ⟨"g", false, some "a", none, "y"⟩]) = some "x" := by
  have h := (collect_first_message_per_sender "g"
    [⟨"g", false, some "a", none, "x"⟩, ⟨"g", false, some "a", none, "y"⟩]).2.1 "a"
  rw [h]
  decide

/-- C7: the per-stage response map is freshly allocated by each
`waitForResponses` call and the watcher is unsubscribed on return, so
every entry of a stage's response set originates from a message of that
same stage, and a sender that replied in stage N but sends no accepted
message in stage N+1 has no entry in stage N+1's response set. -/
theorem stage_isolation (gid : String) (msgs1 msgs2 : List InboundMessage) :
    (∀ p : String × String, p ∈ collectResponses gid msgs2 →
      ∃ m, m ∈ msgs2 ∧ accepted gid m = true ∧ senderKey m = p.1 ∧ m.text = p.2) ∧
    (∀ s t, lookupA s (collectResponses gid msgs1) = some t →
      (∀ m, m ∈ msgs2 → accepted gid m = true → senderKey m ≠ s) →
      lookupA s (collectResponses gid msgs2) = none) := by
  constructor
  · intro p hp
    rcases mem_foldl_process_source gid msgs2 [] p hp with h | h
    · simp at h
    · exact h
  · intro s t _ hno
    rw [collect_lookup gid msgs2 s]
    have hnil : List.filter (fun m => accepted gid m && senderKey m == s) msgs2 = [] := by
      rw [List.filter_eq_nil_iff]
      intro m hm hx
      have hand : accepted gid m = true ∧ (senderKey m == s) = true := by
        simpa using hx
      exact hno m hm hand.1 (beq_iff_eq.mp hand.2)
    unfold firstText
    rw [hnil]
    rfl

theorem stage_isolation_witness :
    lookupA "a" (collectResponses "g" [⟨"g", false, some "b", none, "z"⟩]) = none :=
  (stage_isolation "g" [⟨"g", false, some "a", none, "x"⟩]
    [⟨"g", false, some "b", none, "z"⟩]).2 "a" "x" (by decide) (by decide)

/-- C9: a group message with neither a sender nor a handle field is
recorded under the fixed key "user", so all anonymous messages of one
stage share a single participant key and only the first accepted one is
kept in the response set. -/
theorem anonymous_messages_keyed_user (gid : String) (msgs : List InboundMessage) :
    (∀ m : InboundMessage, m.sender = none → m.handle = none → senderKey m = "user") ∧
    lookupA "user" (collectResponses gid msgs) = firstText gid "user" msgs := by
  constructor
  · intro m h1 h2
    simp [senderKey, truthyStr, h1, h2]
  · exact collect_lookup gid msgs "user"

theorem anonymous_messages_keyed_user_witness :
    senderKey ⟨"g", false, none, none, "hello"⟩ = "user" :=
  (anonymous_messages_keyed_user "g" []).1 ⟨"g", false, none, none, "hello"⟩ rfl rfl

/-- The poll loop of `waitForResponses` (interactive-agent.ts lines
111-118): each element of `batches` is the list of messages that arrive
during one one-second sleep interval that fits in the timeout; the empty
batch list means the timeout has elapsed.  The loop exits as soon as at
least one response has been recorded, and otherwise runs out of batches
and returns the partial map. -/
def waitForResponsesLoop (gid : String) :
    List (String × String) → List (List InboundMessage) → List (String × String)
  | st, [] => st
  | st, b :: rest =>
    if 1 ≤ st.length then st
    else waitForResponsesLoop gid (b.foldl (processMessage gid) st) rest

/-- A whole `waitForResponses` call: fresh empty response map, then the
poll loop. -/
def runWaitForResponses (gid : String) (batches : List (List InboundMessage)) :
    List (String × String) :=
  waitForResponsesLoop gid [] batches

theorem foldl_process_unaccepted (gid : String) :
    ∀ (l : List InboundMessage) (s0 : List (String × String)),
      (∀ m, m ∈ l → accepted gid m = false) → l.foldl (processMessage gid) s0 = s0 := by
  intro l
  induction l with
  | nil => intro s0 _; rfl
  | cons m rest ih =>
    intro s0 h
    rw [List.foldl_cons]
    have hm : processMessage gid s0 m = s0 := by
      simp [processMessage, h m (List.mem_cons_self m rest)]
    rw [hm]
    exact ih s0 (fun m' hm' => h m' (List.mem_cons_of_mem m hm'))

/-- C4: the collection loop returns as soon as the number of recorded
responses reaches the implemented minimum (the code hard-wires
`minResponses = 1`, the spec's default), ignoring any remaining time;
when the timeout elapses first it returns the partial map as a normal
value, and with no acceptable message at all it returns the empty map —
a normal terminal outcome, not an error. -/
theorem collect_returns_on_threshold_or_timeout (gid : String) (st : List (String × String))
    (b : List InboundMessage) (rest batches : List (List InboundMessage)) :
    (1 ≤ st.length → waitForResponsesLoop gid st (b :: rest) = st) ∧
    (waitForResponsesLoop gid st [] = st) ∧
    ((∀ m, m ∈ batches.flatten → accepted gid m = false) → runWaitForResponses gid batches = []) := by
  refine ⟨?_, rfl, ?_⟩
  · intro h
    simp [waitForResponsesLoop, h]
  · induction batches with
    | nil => intro _; rfl
    | cons b' rest' ih =>
      intro hall
      have hb' : ∀ m, m ∈ b' → accepted gid m = false := by
        intro m hm
        exact hall m (List.mem_flatten.mpr ⟨b', List.mem_cons_self b' rest', hm⟩)
      have hrest : ∀ m, m ∈ rest'.flatten → accepted gid m = false := by
        intro m hm
        rcases List.mem_flatten.mp hm with ⟨l, hl, hml⟩
        exact hall m (List.mem_flatten.mpr ⟨l, List.mem_cons_of_mem b' hl, hml⟩)
      simp only [runWaitForResponses, waitForResponsesLoop, List.length_nil]
      rw [if_neg (by omega)]
      rw [foldl_process_unaccepted gid b' [] hb']
      exact ih hrest

theorem collect_returns_on_threshold_or_timeout_witness :
    waitForResponsesLoop "g" [("a", "x")] [[⟨"g", false, some "b", none, "z"⟩]] = [("a", "x")] ∧
    runWaitForResponses "g" [[⟨"q", false, some "b", none, "z"⟩]] = [] := by
  constructor
  · exact (collect_returns_on_threshold_or_timeout "g" [("a", "x")]
      [⟨"g", false, some "b", none, "z"⟩] [] []).1 (by decide)
  · exact (collect_returns_on_threshold_or_timeout "g" [] [] []
      [[⟨"q", false, some "b", none, "z"⟩]]).2.2 (by decide)

/-- The trim of `String.prototype.trim`: strip whitespace from both ends,
modelled on character lists. -/
def trimChars (l : List Char) : List Char :=
  (((l.dropWhile fun c => c.isWhitespace).reverse.dropWhile fun c => c.isWhitespace)).reverse

/-- `p` occurs at the very start of `l`. -/
def leadsList : List Char → List Char → Bool
  | [], _ => true
  | _ :: _, [] => false
  | a :: p, b :: l => a == b && leadsList p l

/-- `p` occurs contiguously somewhere inside `l`
(the shape of `String.prototype.includes`). -/
def containsSub (p : List Char) : List Char → Bool
  | [] => decide (p = [])
  | c :: rest => leadsList p (c :: rest) || containsSub p rest

theorem leadsList_iff (p : List Char) : ∀ l : List Char,
    leadsList p l = true ↔ ∃ r, l = p ++ r := by
  induction p with
  | nil => intro l; simp [leadsList]
  | cons a p ih =>
    intro l
    cases l with
    | nil => simp [leadsList]
    | cons b l' =>
      rw [leadsList]
      constructor
      · intro h
        have h1 : a = b ∧ leadsList p l' = true := by simpa using h
        obtain ⟨r, hr⟩ := (ih l').mp h1.2
        exact ⟨r, by rw [← h1.1, hr]; rfl⟩
      · rintro ⟨r, hr⟩
        injection hr with h1 h2
        subst h1
        simp [(ih l').mpr ⟨r, h2⟩]

theorem containsSub_iff (p : List Char) : ∀ l : List Char,
    containsSub p l = true ↔ ∃ a b, l = a ++ p ++ b := by
  intro l
  induction l with
  | nil =>
    rw [containsSub]
    simp only [decide_eq_true_eq]
    constructor
    · intro h
      exact ⟨[], [], by simp [h]⟩
    · rintro ⟨a, b, hab⟩
      have h1 := List.append_eq_nil.mp hab.symm
      exact (List.append_eq_nil.mp h1.1).2
  | cons c rest ih =>
    rw [containsSub, Bool.or_eq_true]
    constructor
    · intro h
      rcases h with h | h
      · obtain ⟨r, hr⟩ := (leadsList_iff p _).mp h
        exact ⟨[], r, by simp [hr]⟩
      · obtain ⟨a, b, hab⟩ := ih.mp h
        exact ⟨c :: a, b, by simp [hab]⟩
    · rintro ⟨a, b, hab⟩
      cases a with
      | nil =>
        left
        exact (leadsList_iff p _).mpr ⟨b, by simpa using hab⟩
      | cons a0 a' =>
        right
        injection hab with h1 h2
        exact ih.mpr ⟨a', b, h2⟩

theorem boolEqOfIff {a b : Bool} (h : a = true ↔ b = true) : a = b := by
  cases a <;> cases b <;> simp_all

theorem containsSub_reverse (p l : List Char) :
    containsSub p l.reverse = containsSub p.reverse l := by
  apply boolEqOfIff
  rw [containsSub_iff, containsSub_iff]
  constructor
  · rintro ⟨a, b, hab⟩
    refine ⟨b.reverse, a.reverse, ?_⟩
    have h := congrArg List.reverse hab
    rw [List.reverse_reverse] at h
    simpa [List.reverse_append, List.append_assoc] using h
  · rintro ⟨a, b, hab⟩
    refine ⟨b.reverse, a.reverse, ?_⟩
    rw [hab]
    simp [List.reverse_append, List.append_assoc]

theorem containsSub_dropWhileWS (p : List Char) (hne : p ≠ [])
    (hws : ∀ c ∈ p, c.isWhitespace = false) :
    ∀ x : List Char,
      containsSub p (x.dropWhile fun c => c.isWhitespace) = containsSub p x := by
  intro x
  induction x with
  | nil => rfl
  | cons c t ih =>
    by_cases hc : c.isWhitespace = true
    · rw [List.dropWhile_cons, if_pos (by simp [hc]), ih]
      have hlead : leadsList p (c :: t) = false := by
        cases p with
        | nil => exact absurd rfl hne
        | cons p0 p' =>
          rw [leadsList]
          have hp0 : p0.isWhitespace = false := hws p0 (List.mem_cons_self p0 p')
          have hb : (p0 == c) = false := by
            rw [beq_eq_false_iff_ne]
            intro h
            rw [h, hc] at hp0
            simp at hp0
          simp [hb]
      rw [containsSub, hlead]
      simp
    · have hc' : c.isWhitespace = false := by simpa using hc
      rw [List.dropWhile_cons, if_neg (by simp [hc'])]

theorem containsSub_trim (p : List Char) (hne : p ≠ [])
    (hws : ∀ c ∈ p, c.isWhitespace = false) (x : List Char) :
    containsSub p (trimChars x) = containsSub p x := by
  have hne' : p.reverse ≠ [] := by simpa using hne
  have hws' : ∀ c ∈ p.reverse, c.isWhitespace = false :=
    fun c hc => hws c (List.mem_reverse.mp hc)
  unfold trimChars
  rw [containsSub_reverse]
  rw [containsSub_dropWhileWS p.reverse hne' hws' (x.dropWhile fun c => c.isWhitespace).reverse]
  rw [containsSub_reverse]
  rw [List.reverse_reverse]
  exact containsSub_dropWhileWS p hne hws x

/-- The affirmative token "yes". -/
def yesToken : List Char := ['y', 'e', 's']

/-- The thumbs-up affirmative symbol. -/
def thumbToken : List Char := ['👍']

/-- Reply normalization of `askConfirmation` (interactive-agent.ts lines
174-177): lowercase and trim the reply, then accept a "yes" substring, a
thumbs-up substring, or the exact token "y". -/
def isYes (s : List Char) : Bool :=
  containsSub yesToken (trimChars (s.map Char.toLower)) ||
  containsSub thumbToken (trimChars (s.map Char.toLower)) ||
  trimChars (s.map Char.toLower) == ['y']

/-- C2: a reply normalizes to `true` exactly when its lowercased form
contains "yes" as a substring, trims to the exact token "y", or contains
the thumbs-up affirmative symbol; every other reply normalizes to
`false`. -/
theorem yes_normalization (s : List Char) :
    isYes s = true ↔
      (containsSub yesToken (s.map Char.toLower) = true ∨
       trimChars (s.map Char.toLower) = ['y'] ∨
       containsSub thumbToken (s.map Char.toLower) = true) := by
  unfold isYes
  rw [containsSub_trim yesToken (by decide) (by decide) (s.map Char.toLower)]
  rw [containsSub_trim thumbToken (by decide) (by decide) (s.map Char.toLower)]
  simp only [Bool.or_eq_true, beq_iff_eq]
  tauto

theorem yes_normalization_witness : isYes ['Y', 'E', 'S', '!'] = true :=
  (yes_normalization ['Y', 'E', 'S', '!']).mpr (Or.inl (by decide))

/-- `Math.ceil(rosterSize / 2)` with JavaScript float division, modelled
exactly over the rationals. -/
def ceilHalfRoster (n : Nat) : ℤ := Int.ceil ((n : ℚ) / 2)

/-- `askConfirmation` (interactive-agent.ts lines 161-189): normalize
every collected reply to a boolean, count the `true`s, and confirm
exactly when the count reaches half the roster size rounded up — the
denominator is the roster, not the set of respondents. -/
def askConfirmation (participants : List String) (responses : List (String × List Char)) :
    Bool × List (String × Bool) :=
  let confirmations := responses.map fun pr => (pr.1, isYes pr.2)
  let yesCount := (confirmations.filter fun pr => pr.2).length
  (decide (ceilHalfRoster participants.length ≤ (yesCount : ℤ)), confirmations)

/-- C1: `askConfirmation` confirms exactly when the number of replies
normalized to `true` is at least `ceil(rosterSize / 2)` over the full
roster (non-respondents count as dissent); with roster size 4, replies
yes/no give `false` and replies yes/yes give `true`. -/
theorem confirm_majority_of_roster :
    (∀ (participants : List String) (responses : List (String × List Char)),
      ((askConfirmation participants responses).1 = true ↔
        ceilHalfRoster participants.length ≤
          ((responses.filter fun pr => isYes pr.2).length : ℤ))) ∧
    (askConfirmation ["p1", "p2", "p3", "p4"]
      [("p1", ['y', 'e', 's']), ("p2", ['n', 'o'])]).1 = false ∧
    (askConfirmation ["p1", "p2", "p3", "p4"]
      [("p1", ['y', 'e', 's']), ("p2", ['y', 'e', 's'])]).1 = true := by
  have hc4 : ceilHalfRoster 4 = 2 := by
    unfold ceilHalfRoster
    rw [Int.ceil_eq_iff]
    norm_num
  have hyes : isYes ['y', 'e', 's'] = true := by decide
  have hno : isYes ['n', 'o'] = false := by decide
  refine ⟨?_, by simp [askConfirmation, hyes, hno, hc4], by simp [askConfirmation, hyes, hc4]⟩
  intro participants responses
  unfold askConfirmation
  simp only [decide_eq_true_eq]
  have hlen : ((responses.map fun pr => (pr.1, isYes pr.2)).filter fun pr => pr.2).length
      = (responses.filter fun pr => isYes pr.2).length := by
    induction responses with
    | nil => rfl
    | cons r rest ih =>
      rw [List.map_cons, List.filter_cons, List.filter_cons]
      by_cases h : isYes r.2 = true
      · simp [h, ih]
      · simp [h, ih]
  rw [hlen]

theorem confirm_majority_of_roster_witness :
    (askConfirmation ["p1", "p2"] [("p1", ['y'])]).1 = true := by
  apply (confirm_majority_of_roster.1 ["p1", "p2"] [("p1", ['y'])]).mpr
  have hc2 : ceilHalfRoster 2 = 1 := by
    unfold ceilHalfRoster
    rw [Int.ceil_eq_iff]
    norm_num
  have hy : isYes ['y'] = true := by decide
  simp [hc2, hy]

/-- A stored calendar connection (calendar-oauth.ts lines 6-11): the
record created by the OAuth callback.  The timestamp is abstracted to a
natural number. -/
structure CalendarConnection where
  email : String
  accessToken : String
  refreshToken : String
  connectedAt : Nat
deriving DecidableEq

/-- `Map.set`: insertion-ordered upsert keeping one entry per key. -/
def mapSet {α : Type} (m : List (String × α)) (k : String) (v : α) : List (String × α) :=
  match m with
  | [] => [(k, v)]
  | p :: rest => if p.1 = k then (k, v) :: rest else p :: mapSet rest k v

/-- `this.connections.set(email, {...})` in the OAuth callback handler
(calendar-oauth.ts lines 179-184): a later authorization callback for the
same participant overwrites the earlier record. -/
def recordConnection (conns : List (String × CalendarConnection)) (email : String)
    (c : CalendarConnection) : List (String × CalendarConnection) :=
  mapSet conns email c

theorem lookupA_mapSet_self {α : Type} (m : List (String × α)) (k : String) (v : α) :
    lookupA k (mapSet m k v) = some v := by
  induction m with
  | nil => simp [mapSet, lookupA]
  | cons p rest ih =>
    by_cases h : p.1 = k
    · simp [mapSet, h, lookupA]
    · simp [mapSet, h, lookupA, ih]

theorem lookupA_mapSet_ne {α : Type} (m : List (String × α)) (k s : String) (v : α)
    (h : s ≠ k) : lookupA s (mapSet m k v) = lookupA s m := by
  have h' : ¬k = s := fun hk => h hk.symm
  induction m with
  | nil => simp [mapSet, lookupA, h']
  | cons p rest ih =>
    by_cases hp : p.1 = k
    · have hps : ¬p.1 = s := by rw [hp]; exact h'
      simp [mapSet, hp, lookupA, h', hps]
    · simp [mapSet, hp, lookupA, ih]

theorem mapSet_idem {α : Type} (m : List (String × α)) (k : String) (v : α) :
    mapSet (mapSet m k v) k v = mapSet m k v := by
  induction m with
  | nil => simp [mapSet]
  | cons p rest ih =>
    by_cases h : p.1 = k
    · simp [mapSet, h]
    · simp [mapSet, h, ih]

theorem mem_keys_mapSet {α : Type} (m : List (String × α)) (k a : String) (v : α) :
    a ∈ keysOf (mapSet m k v) → a ∈ keysOf m ∨ a = k := by
  induction m with
  | nil =>
    intro h
    simp [mapSet, keysOf] at h
    exact Or.inr h
  | cons p rest ih =>
    intro h
    by_cases hp : p.1 = k
    · simp only [mapSet, if_pos hp, keysOf, List.map_cons, List.mem_cons] at h
      rcases h with h | h
      · exact Or.inr h
      · exact Or.inl (by simp only [keysOf, List.map_cons, List.mem_cons]; exact Or.inr h)
    · simp only [mapSet, if_neg hp, keysOf, List.map_cons, List.mem_cons] at h
      rcases h with h | h
      · exact Or.inl (by simp only [keysOf, List.map_cons, List.mem_cons]; exact Or.inl h)
      · rcases ih h with h' | h'
        · exact Or.inl (by
            simp only [keysOf, List.map_cons, List.mem_cons]
            exact Or.inr h')
        · exact Or.inr h'

theorem keys_mapSet_nodup {α : Type} (m : List (String × α)) (k : String) (v : α) :
    (keysOf m).Nodup → (keysOf (mapSet m k v)).Nodup := by
  induction m with
  | nil => intro _; simp [mapSet, keysOf]
  | cons p rest ih =>
    intro h
    have hk : keysOf (p :: rest) = p.1 :: keysOf rest := rfl
    rw [hk] at h
    have h' := List.nodup_cons.mp h
    by_cases hp : p.1 = k
    · have hset : keysOf (mapSet (p :: rest) k v) = k :: keysOf rest := by
        simp [mapSet, hp, keysOf]
      rw [hset, List.nodup_cons]
      refine ⟨?_, h'.2⟩
      rw [← hp]
      exact h'.1
    · have hset : keysOf (mapSet (p :: rest) k v) = p.1 :: keysOf (mapSet rest k v) := by
        simp [mapSet, hp, keysOf]
      rw [hset, List.nodup_cons]
      constructor
      · intro hc
        rcases mem_keys_mapSet rest k p.1 v hc with hmem | heq
        · exact h'.1 hmem
        · exact hp heq
      · exact ih h'.2

theorem lookupA_isSome_mapSet {α : Type} (m : List (String × α)) (s k : String) (v : α) :
    (lookupA s m).isSome = true → (lookupA s (mapSet m k v)).isSome = true := by
  intro h
  by_cases hs : s = k
  · subst hs
    rw [lookupA_mapSet_self]
    rfl
  · rw [lookupA_mapSet_ne m k s v hs]
    exact h

/-- A sequence of OAuth-callback events applied to the connection map:
the only operation the source ever performs on `this.connections`. -/
def applyConnOps (conns : List (String × CalendarConnection))
    (ops : List (String × CalendarConnection)) : List (String × CalendarConnection) :=
  ops.foldl (fun cs p => recordConnection cs p.1 p.2) conns

theorem lookupA_isSome_applyConnOps (ops : List (String × CalendarConnection)) :
    ∀ (conns : List (String × CalendarConnection)) (s : String),
      (lookupA s conns).isSome = true →
      (lookupA s (applyConnOps conns ops)).isSome = true := by
  induction ops with
  | nil => intro conns s h; exact h
  | cons o rest ih =>
    intro conns s h
    exact ih (recordConnection conns o.1 o.2) s (lookupA_isSome_mapSet conns s o.1 o.2 h)

/-- C8: `recordConnection` is an idempotent upsert: the participant's
record becomes the new credential, re-recording is a no-op, at most one
record per participant is kept, and under any sequence of callback events
a connected participant stays connected - the connected set never
shrinks (no operation on the map ever deletes). -/
theorem connection_records_monotone (conns : List (String × CalendarConnection))
    (k : String) (v : CalendarConnection) (ops : List (String × CalendarConnection)) :
    (lookupA k (recordConnection conns k v) = some v) ∧
    (recordConnection (recordConnection conns k v) k v = recordConnection conns k v) ∧
    ((keysOf conns).Nodup → (keysOf (recordConnection conns k v)).Nodup) ∧
    (∀ s, (lookupA s conns).isSome = true →
      (lookupA s (applyConnOps conns ops)).isSome = true) :=
  ⟨lookupA_mapSet_self conns k v, mapSet_idem conns k v, keys_mapSet_nodup conns k v,
    fun s => lookupA_isSome_applyConnOps ops conns s⟩

def connA : CalendarConnection := ⟨"a", "tokenA", "refreshA", 0⟩

def connZ : CalendarConnection := ⟨"z", "tokenZ", "refreshZ", 0⟩

theorem connection_records_monotone_witness :
    lookupA "a" (recordConnection [("a", connA)] "a" connZ) = some connZ ∧
    (keysOf (recordConnection [("a", connA)] "a" connZ)).Nodup ∧
    (lookupA "a" (applyConnOps [("a", connA)] [("b", connZ)])).isSome = true := by
  refine ⟨(connection_records_monotone [("a", connA)] "a" connZ []).1, ?_, ?_⟩
  · exact (connection_records_monotone [("a", connA)] "a" connZ []).2.2.1 (by decide)
  · exact (connection_records_monotone [("a", connA)] "a" connZ
      [("b", connZ)]).2.2.2 "a" (by decide)

/-- `expectedEmails.filter(email => this.connections.has(email))`
(calendar-oauth.ts lines 374-376): the connected subset of the roster. -/
def connectedOf (roster : List String) (conns : List (String × CalendarConnection)) :
    List String :=
  roster.filter fun e => (lookupA e conns).isSome

/-- `Math.ceil(expectedEmails.length * minThreshold)` (line 368), the
float arithmetic modelled exactly over the rationals. -/
def minRequiredFor (n : Nat) (minThreshold : ℚ) : ℤ :=
  Int.ceil ((n : ℚ) * minThreshold)

/-- The poll loop of `waitForConnections` (calendar-oauth.ts lines
373-400): each batch is the list of OAuth callbacks processed during one
two-second sleep; the empty batch list means the timeout has elapsed.
Every exit path returns `this.connections` - the whole connection map,
not a roster-filtered subset. -/
def waitForConnectionsLoop (roster : List String) (minRequired : ℤ) :
    List (String × CalendarConnection) → List (List (String × CalendarConnection)) →
      List (String × CalendarConnection)
  | conns, [] => conns
  | conns, b :: rest =>
    if minRequired ≤ ((connectedOf roster conns).length : ℤ) then conns
    else waitForConnectionsLoop roster minRequired
      (b.foldl (fun cs p => recordConnection cs p.1 p.2) conns) rest

/-- A whole `waitForConnections` call (lines 359-403). -/
def waitForConnections (roster : List String) (minThreshold : ℚ)
    (conns : List (String × CalendarConnection))
    (batches : List (List (String × CalendarConnection))) :
    List (String × CalendarConnection) :=
  waitForConnectionsLoop roster (minRequiredFor roster.length minThreshold) conns batches

/-- C5 counterexample: `waitForConnections` does not return only the
ConnectionRecords of roster participants - with a connection map that
holds a record for "z", which is not on the roster ["a", "b"], the
returned map still contains "z"'s record, because the source returns the
entire `this.connections` map. -/
theorem waitForConnections_not_roster_subset :
    waitForConnections ["a", "b"] (1 / 2) [("a", connA), ("z", connZ)] [] =
      [("a", connA), ("z", connZ)] ∧
    (lookupA "z"
      (waitForConnections ["a", "b"] (1 / 2) [("a", connA), ("z", connZ)] [])).isSome = true ∧
    "z" ∉ (["a", "b"] : List String) :=
  ⟨rfl, by decide, by decide⟩

/-- C5 (amended): `waitForConnections` computes
`minRequired = ceil(rosterSize × minFraction)`, resolves as soon as the
connected roster count reaches `minRequired` (ignoring any remaining
time), otherwise returns when the timeout elapses - even with zero
connections - and in either case returns the entire connection map as it
stands. -/
theorem waitForConnections_quorum_or_timeout (roster : List String) (t : ℚ)
    (conns : List (String × CalendarConnection)) (b : List (String × CalendarConnection))
    (rest : List (List (String × CalendarConnection))) :
    (waitForConnections roster t conns [] = conns) ∧
    (minRequiredFor roster.length t ≤ ((connectedOf roster conns).length : ℤ) →
      waitForConnections roster t conns (b :: rest) = conns) := by
  refine ⟨rfl, ?_⟩
  intro h
  simp only [waitForConnections, waitForConnectionsLoop]
  rw [if_pos h]

theorem waitForConnections_quorum_or_timeout_witness :
    waitForConnections ["a", "b", "c", "d"] (1 / 2) [("a", connA), ("b", connZ)]
      [[("c", connA)]] = [("a", connA), ("b", connZ)] := by
  apply (waitForConnections_quorum_or_timeout ["a", "b", "c", "d"] (1 / 2)
    [("a", connA), ("b", connZ)] [("c", connA)] []).2
  have h2 : minRequiredFor (["a", "b", "c", "d"] : List String).length (1 / 2) = 2 := by
    unfold minRequiredFor
    rw [Int.ceil_eq_iff]
    norm_num
  have hc : ((connectedOf ["a", "b", "c", "d"] [("a", connA), ("b", connZ)]).length : ℤ)
      = 2 := by decide
  rw [h2, hc]

/-- The value of the leading run of decimal digits, if there is one. -/
def leadingDigitsVal (l : List Char) : Option Nat :=
  match l.takeWhile Char.isDigit with
  | [] => none
  | ds => some (ds.foldl (fun acc c => 10 * acc + (c.toNat - 48)) 0)

/-- Model of JavaScript `parseInt(x.trim())`: skip surrounding whitespace,
read an optional sign and the leading run of decimal digits, and fail
(`NaN`, modelled as `none`) when no digit is found.  The radix-prefix
forms of `parseInt` are not modelled; no analysed input uses them. -/
def jsParseInt (l : List Char) : Option ℤ :=
  match trimChars l with
  | '-' :: rest => (leadingDigitsVal rest).map fun n => -(n : ℤ)
  | '+' :: rest => (leadingDigitsVal rest).map fun n => (n : ℤ)
  | l' => (leadingDigitsVal l').map fun n => (n : ℤ)

/-- JavaScript `Math.round`: round half toward positive infinity. -/
def jsRound (q : ℚ) : ℤ := Int.floor (q + 1 / 2)

/-- The `choices` list of the date-selection stage
(clean-interactive-planner.ts lines 111-113):
`.map(c => parseInt(c.trim())).filter(c => c >= 1 && c <= 3)`.
A reply parsing to `NaN` fails both comparisons, so mapping to an option
and filtering out `none` is the same computation. -/
def dateValidChoices (replies : List (List Char)) : List ℤ :=
  (replies.filterMap jsParseInt).filter fun c => 1 ≤ c && c ≤ 3

/-- The `chosenIndex` of the date-selection stage (line 115):
`choices.length > 0 ? Math.round(sum / choices.length) - 1 : 0`, where
`reduce((a, b) => a + b)` on the nonempty list is its sum. -/
def chosenDateIndex (replies : List (List Char)) : ℤ :=
  if 0 < (dateValidChoices replies).length then
    jsRound ((((dateValidChoices replies).foldl (fun a b => a + b) 0 : ℤ) : ℚ) /
      ((dateValidChoices replies).length : ℚ)) - 1
  else 0

/-- Modelled from the spec: the valid values of the numeric single-choice
aggregation rule of section 4.4, with a general `optionCount`. -/
def specValidChoices (optionCount : Nat) (replies : List (List Char)) : List ℤ :=
  (replies.filterMap jsParseInt).filter fun c => 1 ≤ c && c ≤ (optionCount : ℤ)

/-- Modelled from the spec: the numeric single-choice aggregation rule —
parse each reply as an integer, discard values outside `[1, optionCount]`,
and take `round(mean(validValues)) - 1` when any valid value remains,
falling back to the default index 0 otherwise. -/
def specNumericSingleChoice (optionCount : Nat) (replies : List (List Char)) : ℤ :=
  if specValidChoices optionCount replies ≠ [] then
    jsRound ((((specValidChoices optionCount replies).foldl (fun a b => a + b) 0 : ℤ) : ℚ) /
      ((specValidChoices optionCount replies).length : ℚ)) - 1
  else 0

/-- C6: the date-choice aggregation of the planner is exactly the spec's
numeric single-choice rule with `optionCount = 3`, and on the replies
"1", "2", "5", "abc" it discards "5" and "abc" and selects the 0-based
index `round(mean(1, 2)) - 1 = 1`. -/
theorem numeric_single_choice_aggregation :
    (∀ replies : List (List Char),
      chosenDateIndex replies = specNumericSingleChoice 3 replies) ∧
    dateValidChoices [['1'], ['2'], ['5'], ['a', 'b', 'c']] = [1, 2] ∧
    chosenDateIndex [['1'], ['2'], ['5'], ['a', 'b', 'c']] = 1 := by
  have hv : dateValidChoices [['1'], ['2'], ['5'], ['a', 'b', 'c']] = [1, 2] := by decide
  refine ⟨?_, hv, ?_⟩
  · intro replies
    have hlist : specValidChoices 3 replies = dateValidChoices replies := by
      unfold specValidChoices dateValidChoices
      norm_num
    unfold chosenDateIndex specNumericSingleChoice
    rw [hlist]
    by_cases h : dateValidChoices replies = []
    · simp [h]
    · have hpos : 0 < (dateValidChoices replies).length := List.length_pos.mpr h
      simp [h, hpos]
  · unfold chosenDateIndex jsRound
    rw [hv]
    norm_num [List.foldl]

/-- C10: on the valid in-range replies "1" and "3" with three options, the
mean-based aggregation selects index 1 - the option numbered 2, which no
respondent chose. -/
theorem mean_choice_nobody_picked :
    dateValidChoices [['1'], ['3']] = [1, 3] ∧
    chosenDateIndex [['1'], ['3']] = 1 ∧
    chosenDateIndex [['1'], ['3']] + 1 ∉ dateValidChoices [['1'], ['3']] := by
  have hv : dateValidChoices [['1'], ['3']] = [1, 3] := by decide
  have hc : chosenDateIndex [['1'], ['3']] = 1 := by
    unfold chosenDateIndex jsRound
    rw [hv]
    norm_num [List.foldl]
  refine ⟨hv, hc, ?_⟩
  rw [hc, hv]
  decide
